import Mathlib

/-!
Shallow embedding of the best-fit memory allocator from `src/lib.rs`
(`MemoryManager` with its operations `insert`, `delete`, `find`, `read`,
`update`, `dump`) and of the line-oriented command dispatcher from
`src/proc.rs` (`process_file`).

The Rust `BTreeMap<usize, Vec<MemoryBlock>>` of free blocks is embedded as a
key-sorted association list `List (Nat × List MemoryBlock)`; the
`BTreeMap<usize, MemoryBlock>` of allocated blocks as an association list
`List (Nat × MemoryBlock)`.  The fixed `[u8; 65535]` arena is embedded as a
total function `Nat → Nat` together with explicit bounds checks at every
slice access; an operation whose Rust original would panic (slice index out
of range) is embedded as returning `none`.
-/

namespace MemSim

/-- Total size of the managed memory (`MEMORY_SIZE` in `lib.rs`). -/
def MEMORY_SIZE : Nat := 65535

/-- A block of memory: `MemoryBlock` in `lib.rs`. -/
structure MemoryBlock where
  start : Nat
  size : Nat
  allocated : Bool
  id : Option Nat
deriving Repr, DecidableEq

/-- The free index: `BTreeMap<usize, Vec<MemoryBlock>>`, as a key-sorted list. -/
abbrev FreeMap := List (Nat × List MemoryBlock)

/-- The allocated table: `BTreeMap<usize, MemoryBlock>`, as an association list. -/
abbrev AllocMap := List (Nat × MemoryBlock)

/-- The allocator engine state: `MemoryManager` in `lib.rs`. -/
structure MemoryManager where
  memory : Nat → Nat
  free_blocks : FreeMap
  allocated_blocks : AllocMap
  next_id : Nat

/-- `MemoryManager::new`: one free block spanning the whole arena. -/
def MemoryManager.new : MemoryManager :=
  { memory := fun _ => 0
    free_blocks := [(MEMORY_SIZE, [⟨0, MEMORY_SIZE, false, none⟩])]
    allocated_blocks := []
    next_id := 0 }

/-- The search loop of `MemoryManager::insert`: iterate over
`free_blocks.range_mut(size..)` in ascending key order and return the first
`(key, index)` whose vector holds a block with `block.size >= size`. -/
def chooseBlock (size : Nat) : FreeMap → Option (Nat × Nat)
  | [] => none
  | (k, blocks) :: rest =>
    if size ≤ k then
      match blocks.findIdx? (fun b => size ≤ b.size) with
      | some i => some (k, i)
      | none => chooseBlock size rest
    else chooseBlock size rest

/-- `blocks.remove(index)` on the vector stored under `key`, followed by the
clean-up that drops the key when its vector becomes empty.  Returns the
removed block (when the key is present and the index in range) and the
resulting free index. -/
def freeRemove (key index : Nat) : FreeMap → Option MemoryBlock × FreeMap
  | [] => (none, [])
  | (k, blocks) :: rest =>
    if k = key then
      let b := blocks.get? index
      let blocks1 := blocks.eraseIdx index
      if blocks1.isEmpty then (b, rest) else (b, (k, blocks1) :: rest)
    else
      let p := freeRemove key index rest
      (p.1, (k, blocks) :: p.2)

/-- `free_blocks.entry(k).or_insert_with(Vec::new).push(b)`: push `b` at the
end of the vector stored under `k`, creating the entry (at its sorted
position) if absent. -/
def freeInsert (k : Nat) (b : MemoryBlock) : FreeMap → FreeMap
  | [] => [(k, [b])]
  | (k1, v) :: rest =>
    if k < k1 then (k, [b]) :: (k1, v) :: rest
    else if k = k1 then (k, v ++ [b]) :: rest
    else (k1, v) :: freeInsert k b rest

/-- `allocated_blocks.get(&id)`. -/
def allocGet (id : Nat) : AllocMap → Option MemoryBlock
  | [] => none
  | (i, b) :: rest => if id = i then some b else allocGet id rest

/-- `allocated_blocks.insert(id, b)` (replacing any existing binding). -/
def allocInsert (id : Nat) (b : MemoryBlock) : AllocMap → AllocMap
  | [] => [(id, b)]
  | (i, b1) :: rest =>
    if id < i then (id, b) :: (i, b1) :: rest
    else if id = i then (id, b) :: rest
    else (i, b1) :: allocInsert id b rest

/-- `allocated_blocks.remove(&id)`: the removed binding's value (if any) and
the remaining table. -/
def allocRemove (id : Nat) : AllocMap → Option MemoryBlock × AllocMap
  | [] => (none, [])
  | (i, b) :: rest =>
    if id = i then (some b, rest)
    else
      let p := allocRemove id rest
      (p.1, (i, b) :: p.2)

/-- `self.memory[start..start + data.len()].copy_from_slice(data)` on the
arena-as-function. -/
def writeBytes (mem : Nat → Nat) (start : Nat) (data : List Nat) : Nat → Nat :=
  fun a => if start ≤ a ∧ a < start + data.length then data.getD (a - start) 0 else mem a

/-- `MemoryManager::insert`.  `some (some i, s1)` is a successful allocation
returning id `i`; `some (none, s)` is the `None` (out-of-memory) return;
`none` is a Rust panic (`&data[..size]` with `size > data.len()`, or the
arena slice `memory[start..start+size]` out of bounds). -/
def MemoryManager.insert (s : MemoryManager) (size : Nat) (data : List Nat) :
    Option (Option Nat × MemoryManager) :=
  match chooseBlock size s.free_blocks with
  | none => some (none, s)
  | some (key, index) =>
    match freeRemove key index s.free_blocks with
    | (none, _) => none
    | (some block, free1) =>
      if size ≤ data.length ∧ block.start + size ≤ MEMORY_SIZE then
        let newId := s.next_id
        let mem1 := writeBytes s.memory block.start (data.take size)
        let alloc1 := allocInsert newId ⟨block.start, size, true, some newId⟩ s.allocated_blocks
        let free2 :=
          if size < block.size then
            freeInsert (block.size - size) ⟨block.start + size, block.size - size, false, none⟩ free1
          else free1
        some (some newId, ⟨mem1, free2, alloc1, s.next_id + 1⟩)
      else none

/-- `MemoryManager::delete`: remove the allocated entry and push its range
back into the free index (never merging with neighbours); on an unknown id
only an error message is printed and nothing changes. -/
def MemoryManager.delete (s : MemoryManager) (id : Nat) : MemoryManager :=
  match allocRemove id s.allocated_blocks with
  | (none, _) => s
  | (some block, alloc1) =>
    { s with
      allocated_blocks := alloc1
      free_blocks := freeInsert block.size ⟨block.start, block.size, false, none⟩ s.free_blocks }

/-- `MemoryManager::find`: the bytes `memory[start..start + size]` of the
allocated block, if the id is present. -/
def MemoryManager.find (s : MemoryManager) (id : Nat) : Option (List Nat) :=
  (allocGet id s.allocated_blocks).map fun b =>
    (List.range b.size).map fun i => s.memory (b.start + i)

/-- `MemoryManager::update`: overwrite the first `new_data.len()` bytes of
the block when `new_data.len() <= block.size`; `none` is the Rust panic of an
out-of-bounds arena slice.  Unknown id or too-large payload print an error
and change nothing. -/
def MemoryManager.update (s : MemoryManager) (id : Nat) (new_data : List Nat) :
    Option MemoryManager :=
  match allocGet id s.allocated_blocks with
  | none => some s
  | some block =>
    if new_data.length ≤ block.size then
      if block.start + new_data.length ≤ MEMORY_SIZE then
        some { s with memory := writeBytes s.memory block.start new_data }
      else none
    else some s

/-- `MemoryManager::dump`: the listing it prints — every free block as
`(start, key)` in ascending key order, then every allocated block as
`(id, start, size)` in ascending id order.  Pure query. -/
def MemoryManager.dump (s : MemoryManager) : List (Nat × Nat) × List (Nat × Nat × Nat) :=
  ((s.free_blocks.map fun kv => kv.2.map fun b => (b.start, kv.1)).flatten,
   s.allocated_blocks.map fun kv => (kv.1, kv.2.start, kv.2.size))

/-- One engine operation, as dispatched by the command layer. -/
inductive Op where
  | insert (size : Nat) (data : List Nat)
  | delete (id : Nat)
  | find (id : Nat)
  | read (id : Nat)
  | update (id : Nat) (data : List Nat)
  | dump

/-- Run one operation: the id returned (for a successful insert) and the
next state; `none` when the Rust original would panic. -/
def Op.step (o : Op) (s : MemoryManager) : Option (Option Nat × MemoryManager) :=
  match o with
  | .insert size data => s.insert size data
  | .delete id => some (none, s.delete id)
  | .find _ => some (none, s)
  | .read _ => some (none, s)
  | .update id nd => (s.update id nd).map fun s1 => (none, s1)
  | .dump => some (none, s)

/-- Run a sequence of operations from a state, collecting in order the ids
returned by the successful inserts; `none` when some operation panics. -/
def runIds : List Op → MemoryManager → Option (MemoryManager × List Nat)
  | [], s => some (s, [])
  | o :: rest, s =>
    match o.step s with
    | none => none
    | some (r, s1) => (runIds rest s1).map fun p => (p.1, r.toList ++ p.2)

/-- Address `a` lies in the range `[start, start + size)` of block `b`. -/
def inRange (b : MemoryBlock) (a : Nat) : Bool :=
  decide (b.start ≤ a) && decide (a < b.start + b.size)

/-- All free blocks of the state, in index order. -/
def freeList (s : MemoryManager) : List MemoryBlock :=
  (s.free_blocks.map Prod.snd).flatten

/-- All allocated blocks of the state, in table order. -/
def allocList (s : MemoryManager) : List MemoryBlock :=
  s.allocated_blocks.map Prod.snd

/-- Every block of the state: free blocks then allocated blocks. -/
def blocksOf (s : MemoryManager) : List MemoryBlock :=
  freeList s ++ allocList s

/-- How many blocks of the state cover address `a`. -/
def cov (s : MemoryManager) (a : Nat) : Nat :=
  (blocksOf s).countP fun b => inRange b a

/-- The blocks' ranges are pairwise disjoint (as positions in the list). -/
def PairwiseDisjoint (l : List MemoryBlock) : Prop :=
  l.Pairwise fun b b1 => ∀ a, ¬(inRange b a = true ∧ inRange b1 a = true)

/-- The union of the blocks' ranges is exactly the arena `[0, MEMORY_SIZE)`. -/
def CoversArena (l : List MemoryBlock) : Prop :=
  ∀ a, (∃ b ∈ l, inRange b a = true) ↔ a < MEMORY_SIZE

/-- Well-formedness of an engine state: every state reachable from
`MemoryManager.new` satisfies it.  `covOne` says every arena address is
covered by exactly one block and no block covers anything outside the arena;
the remaining fields record the `BTreeMap` shape of the two indices (sorted
keys, vectors nonempty and made of blocks of the key's size) and the
freshness of `next_id`. -/
structure WF (s : MemoryManager) : Prop where
  covOne : ∀ a, cov s a = if a < MEMORY_SIZE then 1 else 0
  bounded : ∀ b ∈ blocksOf s, b.start + b.size ≤ MEMORY_SIZE
  keyed : ∀ kv ∈ s.free_blocks, ∀ b ∈ kv.2, MemoryBlock.size b = kv.1
  freeNE : ∀ kv ∈ s.free_blocks, kv.2 ≠ ([] : List MemoryBlock)
  sortedFree : (s.free_blocks.map Prod.fst).Pairwise (· < ·)
  idsLt : ∀ kv ∈ s.allocated_blocks, kv.1 < s.next_id

/-- Rust's `str::split_whitespace`, written as structural recursion over
the characters: maximal runs of non-whitespace become the tokens, and runs
of whitespace separate them (no empty tokens). -/
def tokenizeAux : List Char → List Char → List String
  | [], acc => if acc.isEmpty then [] else [String.mk acc.reverse]
  | c :: cs, acc =>
    if c.isWhitespace then
      if acc.isEmpty then tokenizeAux cs []
      else String.mk acc.reverse :: tokenizeAux cs []
    else tokenizeAux cs (c :: acc)

/-- `line.split_whitespace().collect::<Vec<&str>>()`. -/
def tokenizeLine (line : String) : List String := tokenizeAux line.data []

/-- Rust's `str::parse::<usize>()`: an optional leading `+` followed by at
least one decimal digit (numeric overflow is not modelled; `usize` is
embedded as `Nat`). -/
def parseNat? (s : String) : Option Nat :=
  let cs := match s.data with
    | '+' :: rest => rest
    | cs => cs
  if cs.isEmpty then none
  else if cs.all Char.isDigit then
    some (cs.foldl (fun n c => n * 10 + (c.toNat - 48)) 0)
  else none

/-- Rust's `str::as_bytes` (for the ASCII command files the program reads). -/
def strBytes (t : String) : List Nat := t.data.map Char.toNat

/-- Rust's `{:#06x}` format: `0x` plus the hex digits zero-padded to four. -/
def hex06 (n : Nat) : String :=
  let ds := Nat.toDigits 16 n
  "0x" ++ String.mk (List.replicate (4 - ds.length) '0' ++ ds)

/-- Rust's `{:?}` debug format of a byte slice. -/
def renderBytes (l : List Nat) : String :=
  "[" ++ String.intercalate ", " (l.map toString) ++ "]"

/-- The lines printed by `MemoryManager::dump`. -/
def dumpLines (s : MemoryManager) : List String :=
  "Memory Dump:" ::
    ((s.free_blocks.map fun kv => kv.2.map fun b =>
        "FREE: Start: " ++ hex06 b.start ++ ", Size: " ++ toString kv.1).flatten ++
     s.allocated_blocks.map fun kv =>
        "ALLOCATED: ID: " ++ toString kv.1 ++ ", Start: " ++ hex06 kv.2.start ++
          ", Size: " ++ toString kv.2.size)

/-- The `match tokens[0]` dispatch of `proc::process_file`, for one already
tokenized line: the messages printed (the engine's own `println!` output
included) and the resulting state, `none` when the engine panics. -/
def dispatch (tokens : List String) (s : MemoryManager) :
    List String × Option MemoryManager :=
  match tokens with
  | [] => ([], some s)
  | verb :: _ =>
    match verb with
    | "INSERT" =>
      if tokens.length < 3 then (["Error: Invalid INSERT command"], some s)
      else
        match parseNat? (tokens.getD 1 "") with
        | some size =>
          match s.insert size (strBytes (tokens.getD 2 "")) with
          | none => ([], none)
          | some (some id, s1) => (["Allocated ID: " ++ toString id], some s1)
          | some (none, s1) => (["Memory allocation failed"], some s1)
        | none => ([], some s)
    | "DELETE" =>
      if tokens.length < 2 then (["Error: Invalid DELETE command"], some s)
      else
        match parseNat? (tokens.getD 1 "") with
        | some id =>
          match allocGet id s.allocated_blocks with
          | some _ => (["Deleted ID: " ++ toString id], some (s.delete id))
          | none => (["Error: ID " ++ toString id ++ " not found"], some (s.delete id))
        | none => ([], some s)
    | "FIND" =>
      if tokens.length < 2 then (["Error: Invalid FIND command"], some s)
      else
        match parseNat? (tokens.getD 1 "") with
        | some id =>
          match s.find id with
          | some data => (["Data at " ++ toString id ++ ": " ++ renderBytes data], some s)
          | none => (["Nothing at " ++ toString id], some s)
        | none => ([], some s)
    | "READ" =>
      if tokens.length = 2 then
        match parseNat? (tokens.getD 1 "") with
        | some id =>
          match s.find id with
          | some data => (["Data at ID " ++ toString id ++ ": " ++ renderBytes data], some s)
          | none => (["Error: ID " ++ toString id ++ " not found"], some s)
        | none => (["Invalid READ command format"], some s)
      else ([], some s)
    | "UPDATE" =>
      if tokens.length < 3 then (["Error: Invalid UPDATE command"], some s)
      else
        match parseNat? (tokens.getD 1 "") with
        | some id =>
          let nd := strBytes (tokens.getD 2 "")
          match s.update id nd with
          | none => ([], none)
          | some s1 =>
            match allocGet id s.allocated_blocks with
            | none => (["Error: ID " ++ toString id ++ " not found"], some s1)
            | some block =>
              if nd.length ≤ block.size then
                (["Updated ID: " ++ toString id ++ " with new data " ++ renderBytes nd], some s1)
              else (["Error: New data exceeds allocated block size"], some s1)
        | none => ([], some s)
    | "DUMP" => (dumpLines s, some s)
    | other => (["Error: Unknown command `" ++ other ++ "`"], some s)

/-- One iteration of the `for line in lines` loop of `proc::process_file`:
echo the line, tokenize it, skip it when empty, dispatch otherwise. -/
def processLine (line : String) (s : MemoryManager) :
    List String × Option MemoryManager :=
  let p := dispatch (tokenizeLine line) s
  (("Processing line: " ++ line) :: p.1, p.2)

/-- `proc::process_file` over the list of lines of the command file: all
messages printed and the final state (`none` when some line panicked; the
messages printed before the panic are kept). -/
def process_file : List String → MemoryManager → List String × Option MemoryManager
  | [], s => ([], some s)
  | line :: rest, s =>
    let p := processLine line s
    match p.2 with
    | none => (p.1, none)
    | some s1 =>
      let q := process_file rest s1
      (p.1 ++ q.1, q.2)

theorem countP_eraseIdx_get {α : Type} (p : α → Bool) :
    ∀ (v : List α) (i : Nat) (b : α), v.get? i = some b →
      v.countP p = (v.eraseIdx i).countP p + (if p b then 1 else 0)
  | [], i, b, h => by simp at h
  | x :: t, 0, b, h => by
    simp only [List.get?_cons_zero, Option.some.injEq] at h
    subst h
    simp [List.countP_cons]
  | x :: t, i + 1, b, h => by
    simp only [List.get?_cons_succ] at h
    have ih := countP_eraseIdx_get p t i b h
    simp only [List.eraseIdx_cons_succ, List.countP_cons, ih]
    omega

/-- Flatten a free index into the list of all its blocks, in index order. -/
def flatF (m : FreeMap) : List MemoryBlock := (m.map Prod.snd).flatten

theorem flatF_cons (k : Nat) (v : List MemoryBlock) (m : FreeMap) :
    flatF ((k, v) :: m) = v ++ flatF m := rfl

theorem mem_flatF {b : MemoryBlock} {m : FreeMap} :
    b ∈ flatF m ↔ ∃ kv ∈ m, b ∈ kv.2 := by
  simp only [flatF, List.mem_flatten, List.mem_map]
  constructor
  · rintro ⟨l, ⟨kv, hkv, rfl⟩, hb⟩
    exact ⟨kv, hkv, hb⟩
  · rintro ⟨kv, hkv, hb⟩
    exact ⟨kv.2, ⟨kv, hkv, rfl⟩, hb⟩

theorem countP_flatF_freeInsert (p : MemoryBlock → Bool) (k : Nat) (b : MemoryBlock) :
    ∀ m : FreeMap, (flatF (freeInsert k b m)).countP p
      = (flatF m).countP p + (if p b then 1 else 0)
  | [] => by simp [freeInsert, flatF, List.countP_cons]
  | (k1, v) :: rest => by
    simp only [freeInsert]
    split
    · simp only [flatF_cons, List.countP_append, List.countP_cons, List.countP_nil]
      omega
    · split
      · simp only [flatF_cons, List.countP_append, List.countP_cons, List.countP_nil]
        omega
      · simp only [flatF_cons, List.countP_append,
          countP_flatF_freeInsert p k b rest]
        omega

theorem mem_flatF_freeInsert {x : MemoryBlock} (k : Nat) (b : MemoryBlock) :
    ∀ m : FreeMap, x ∈ flatF (freeInsert k b m) → x = b ∨ x ∈ flatF m
  | [] => by
    simp [freeInsert, flatF]
  | (k1, v) :: rest => by
    simp only [freeInsert]
    split
    · simp only [flatF_cons, List.mem_append, List.mem_singleton, List.mem_cons]
      tauto
    · split
      · simp only [flatF_cons, List.mem_append, List.mem_singleton]
        tauto
      · intro h
        simp only [flatF_cons, List.mem_append] at h ⊢
        rcases h with h | h
        · tauto
        · rcases mem_flatF_freeInsert k b rest h with h1 | h1 <;> tauto

theorem freeInsert_keyed {k : Nat} {b : MemoryBlock} (hb : b.size = k) :
    ∀ (m : FreeMap), (∀ kv ∈ m, ∀ x ∈ kv.2, MemoryBlock.size x = kv.1) →
      ∀ kv ∈ freeInsert k b m, ∀ x ∈ kv.2, MemoryBlock.size x = kv.1
  | [], _ => by
    intro kv hkv x hx
    simp only [freeInsert, List.mem_singleton] at hkv
    subst hkv
    simp only [List.mem_singleton] at hx
    subst hx
    exact hb
  | (k1, v) :: rest, hm => by
    intro kv hkv x hx
    by_cases hlt : k < k1
    · simp only [freeInsert, if_pos hlt, List.mem_cons] at hkv
      rcases hkv with rfl | hkv
      · simp only [List.mem_singleton] at hx
        subst hx
        exact hb
      · exact hm kv (List.mem_cons.mpr hkv) x hx
    · by_cases heq : k = k1
      · simp only [freeInsert, if_neg hlt, if_pos heq, List.mem_cons] at hkv
        rcases hkv with rfl | hkv
        · simp only [List.mem_append, List.mem_singleton] at hx
          rcases hx with hx | hx
          · have := hm (k1, v) (by simp) x hx
            simpa [heq] using this
          · subst hx
            exact hb
        · exact hm kv (by simp [hkv]) x hx
      · simp only [freeInsert, if_neg hlt, if_neg heq, List.mem_cons] at hkv
        rcases hkv with rfl | hkv
        · exact hm (k1, v) (by simp) x hx
        · exact freeInsert_keyed hb rest (fun a ha => hm a (by simp [ha])) kv hkv x hx

theorem freeInsert_ne (k : Nat) (b : MemoryBlock) :
    ∀ (m : FreeMap), (∀ kv ∈ m, kv.2 ≠ ([] : List MemoryBlock)) →
      ∀ kv ∈ freeInsert k b m, kv.2 ≠ ([] : List MemoryBlock)
  | [], _ => by
    intro kv hkv
    simp only [freeInsert, List.mem_singleton] at hkv
    subst hkv
    simp
  | (k1, v) :: rest, hm => by
    intro kv hkv
    by_cases hlt : k < k1
    · simp only [freeInsert, if_pos hlt, List.mem_cons] at hkv
      rcases hkv with rfl | hkv
      · simp
      · exact hm kv (List.mem_cons.mpr hkv)
    · by_cases heq : k = k1
      · simp only [freeInsert, if_neg hlt, if_pos heq, List.mem_cons] at hkv
        rcases hkv with rfl | hkv
        · simp
        · exact hm kv (by simp [hkv])
      · simp only [freeInsert, if_neg hlt, if_neg heq, List.mem_cons] at hkv
        rcases hkv with rfl | hkv
        · exact hm (k1, v) (by simp)
        · exact freeInsert_ne k b rest (fun a ha => hm a (by simp [ha])) kv hkv

theorem freeInsert_keys_subset (k : Nat) (b : MemoryBlock) :
    ∀ (m : FreeMap) (y : Nat), y ∈ (freeInsert k b m).map Prod.fst →
      y = k ∨ y ∈ m.map Prod.fst
  | [], y => by simp [freeInsert]
  | (k1, v) :: rest, y => by
    simp only [freeInsert]
    split
    · simp only [List.map_cons, List.mem_cons]
      tauto
    · split
      · simp only [List.map_cons, List.mem_cons]
        tauto
      · simp only [List.map_cons, List.mem_cons]
        intro h
        rcases h with h | h
        · tauto
        · rcases freeInsert_keys_subset k b rest y h with h1 | h1 <;> tauto

theorem freeInsert_sorted (k : Nat) (b : MemoryBlock) :
    ∀ (m : FreeMap), (m.map Prod.fst).Pairwise (· < ·) →
      ((freeInsert k b m).map Prod.fst).Pairwise (· < ·)
  | [], _ => by simp [freeInsert]
  | (k1, v) :: rest, hm => by
    simp only [List.map_cons, List.pairwise_cons] at hm
    obtain ⟨h1, h2⟩ := hm
    by_cases hlt : k < k1
    · simp only [freeInsert, if_pos hlt, List.map_cons, List.pairwise_cons, List.mem_cons]
      refine ⟨?_, h1, h2⟩
      rintro y (rfl | hy)
      · exact hlt
      · exact lt_trans hlt (h1 y hy)
    · by_cases heq : k = k1
      · subst heq
        simp only [freeInsert, if_neg hlt, eq_self_iff_true, if_true, List.map_cons,
          List.pairwise_cons]
        exact ⟨h1, h2⟩
      · simp only [freeInsert, if_neg hlt, if_neg heq, List.map_cons, List.pairwise_cons]
        constructor
        · intro y hy
          rcases freeInsert_keys_subset k b rest y hy with rfl | hy1
          · omega
          · exact h1 y hy1
        · exact freeInsert_sorted k b rest h2

theorem freeRemove_countP (p : MemoryBlock → Bool) (key i : Nat) :
    ∀ (m m1 : FreeMap) (b : MemoryBlock), freeRemove key i m = (some b, m1) →
      (flatF m).countP p = (flatF m1).countP p + (if p b then 1 else 0)
  | [], m1, b, h => by simp [freeRemove] at h
  | (k, v) :: rest, m1, b, h => by
    by_cases hk : k = key
    · simp only [freeRemove, if_pos hk] at h
      by_cases he : (v.eraseIdx i).isEmpty
      · rw [if_pos he] at h
        simp only [Prod.mk.injEq] at h
        obtain ⟨hb, hm1⟩ := h
        subst hm1
        have hc := countP_eraseIdx_get p v i b hb
        rw [List.isEmpty_iff] at he
        rw [he] at hc
        simp only [List.countP_nil] at hc
        simp only [flatF_cons, List.countP_append]
        omega
      · rw [if_neg he] at h
        simp only [Prod.mk.injEq] at h
        obtain ⟨hb, hm1⟩ := h
        subst hm1
        have hc := countP_eraseIdx_get p v i b hb
        simp only [flatF_cons, List.countP_append]
        omega
    · rcases hp : freeRemove key i rest with ⟨r, rest1⟩
      simp only [freeRemove, if_neg hk, hp, Prod.mk.injEq] at h
      obtain ⟨hb, hm1⟩ := h
      subst hb
      subst hm1
      have ih := freeRemove_countP p key i rest rest1 b hp
      simp only [flatF_cons, List.countP_append]
      omega

theorem freeRemove_mem (key i : Nat) :
    ∀ (m m1 : FreeMap) (b : MemoryBlock), freeRemove key i m = (some b, m1) →
      b ∈ flatF m
  | [], m1, b, h => by simp [freeRemove] at h
  | (k, v) :: rest, m1, b, h => by
    by_cases hk : k = key
    · simp only [freeRemove, if_pos hk] at h
      by_cases he : (v.eraseIdx i).isEmpty
      · rw [if_pos he] at h
        simp only [Prod.mk.injEq] at h
        exact (flatF_cons k v rest) ▸ List.mem_append_left _ (List.get?_mem h.1)
      · rw [if_neg he] at h
        simp only [Prod.mk.injEq] at h
        exact (flatF_cons k v rest) ▸ List.mem_append_left _ (List.get?_mem h.1)
    · rcases hp : freeRemove key i rest with ⟨r, rest1⟩
      simp only [freeRemove, if_neg hk, hp, Prod.mk.injEq] at h
      obtain ⟨hb, hm1⟩ := h
      subst hb
      exact (flatF_cons k v rest) ▸ List.mem_append_right _ (freeRemove_mem key i rest rest1 b hp)

theorem freeRemove_subset (key i : Nat) :
    ∀ (m : FreeMap) (x : MemoryBlock), x ∈ flatF ((freeRemove key i m).2) → x ∈ flatF m
  | [], x => by simp [freeRemove]
  | (k, v) :: rest, x => by
    by_cases hk : k = key
    · simp only [freeRemove, if_pos hk]
      by_cases he : (v.eraseIdx i).isEmpty
      · rw [if_pos he]
        intro h
        exact (flatF_cons k v rest) ▸ List.mem_append_right _ h
      · rw [if_neg he]
        simp only [flatF_cons, List.mem_append]
        rintro (h | h)
        · exact Or.inl (List.mem_of_mem_eraseIdx h)
        · exact Or.inr h
    · rcases hp : freeRemove key i rest with ⟨r, rest1⟩
      simp only [freeRemove, if_neg hk, hp, flatF_cons, List.mem_append]
      rintro (h | h)
      · exact Or.inl h
      · exact Or.inr (freeRemove_subset key i rest x (by rw [hp]; exact h))

theorem freeRemove_keyed (key i : Nat) :
    ∀ (m : FreeMap), (∀ kv ∈ m, ∀ x ∈ kv.2, MemoryBlock.size x = kv.1) →
      ∀ kv ∈ (freeRemove key i m).2, ∀ x ∈ kv.2, MemoryBlock.size x = kv.1
  | [], _ => by simp [freeRemove]
  | (k, v) :: rest, hm => by
    intro kv hkv x hx
    by_cases hk : k = key
    · simp only [freeRemove, if_pos hk] at hkv
      by_cases he : (v.eraseIdx i).isEmpty
      · rw [if_pos he] at hkv
        exact hm kv (by simp [hkv]) x hx
      · rw [if_neg he] at hkv
        rcases List.mem_cons.mp hkv with rfl | hkv
        · exact hm (k, v) (by simp) x (List.mem_of_mem_eraseIdx hx)
        · exact hm kv (by simp [hkv]) x hx
    · rcases hp : freeRemove key i rest with ⟨r, rest1⟩
      simp only [freeRemove, if_neg hk, hp, List.mem_cons] at hkv
      rcases hkv with rfl | hkv
      · exact hm (k, v) (by simp) x hx
      · exact freeRemove_keyed key i rest (fun a ha => hm a (by simp [ha])) kv
          (by rw [hp]; exact hkv) x hx

theorem freeRemove_nonempty (key i : Nat) :
    ∀ (m : FreeMap), (∀ kv ∈ m, kv.2 ≠ ([] : List MemoryBlock)) →
      ∀ kv ∈ (freeRemove key i m).2, kv.2 ≠ ([] : List MemoryBlock)
  | [], _ => by simp [freeRemove]
  | (k, v) :: rest, hm => by
    intro kv hkv
    by_cases hk : k = key
    · simp only [freeRemove, if_pos hk] at hkv
      by_cases he : (v.eraseIdx i).isEmpty
      · rw [if_pos he] at hkv
        exact hm kv (by simp [hkv])
      · rw [if_neg he] at hkv
        rcases List.mem_cons.mp hkv with rfl | hkv
        · exact List.isEmpty_eq_false.mp (eq_false_of_ne_true he)
        · exact hm kv (by simp [hkv])
    · rcases hp : freeRemove key i rest with ⟨r, rest1⟩
      simp only [freeRemove, if_neg hk, hp, List.mem_cons] at hkv
      rcases hkv with rfl | hkv
      · exact hm (k, v) (by simp)
      · exact freeRemove_nonempty key i rest (fun a ha => hm a (by simp [ha])) kv
          (by rw [hp]; exact hkv)

theorem freeRemove_keys_sublist (key i : Nat) :
    ∀ (m : FreeMap), ((freeRemove key i m).2.map Prod.fst).Sublist (m.map Prod.fst)
  | [] => by simp [freeRemove]
  | (k, v) :: rest => by
    by_cases hk : k = key
    · simp only [freeRemove, if_pos hk]
      by_cases he : (v.eraseIdx i).isEmpty
      · rw [if_pos he]
        exact List.sublist_cons_self _ _
      · rw [if_neg he]
        simp only [List.map_cons]
        exact List.Sublist.cons₂ _ (List.Sublist.refl _)
    · rcases hp : freeRemove key i rest with ⟨r, rest1⟩
      simp only [freeRemove, if_neg hk, hp, List.map_cons]
      have := freeRemove_keys_sublist key i rest
      rw [hp] at this
      exact List.Sublist.cons₂ _ this

theorem chooseBlock_key_mem (size : Nat) :
    ∀ (m : FreeMap) (key i : Nat), chooseBlock size m = some (key, i) →
      key ∈ m.map Prod.fst
  | [], key, i, h => by simp [chooseBlock] at h
  | (k, v) :: rest, key, i, h => by
    by_cases hsk : size ≤ k
    · simp only [chooseBlock, if_pos hsk] at h
      rcases hfi : v.findIdx? (fun b => size ≤ b.size) with _ | j
      · rw [hfi] at h
        exact List.mem_cons.mpr (Or.inr (chooseBlock_key_mem size rest key i h))
      · rw [hfi] at h
        simp only [Option.some.injEq, Prod.mk.injEq] at h
        simp [h.1]
    · simp only [chooseBlock, if_neg hsk] at h
      exact List.mem_cons.mpr (Or.inr (chooseBlock_key_mem size rest key i h))

theorem chooseBlock_link (size : Nat) :
    ∀ (m : FreeMap), (m.map Prod.fst).Pairwise (· < ·) →
      ∀ key i, chooseBlock size m = some (key, i) →
        ∃ b m1, freeRemove key i m = (some b, m1) ∧ size ≤ b.size ∧ size ≤ key
  | [], _, key, i, h => by simp [chooseBlock] at h
  | (k, v) :: rest, hs, key, i, h => by
    simp only [List.map_cons, List.pairwise_cons] at hs
    obtain ⟨h1, h2⟩ := hs
    by_cases hsk : size ≤ k
    · simp only [chooseBlock, if_pos hsk] at h
      rcases hfi : v.findIdx? (fun b => size ≤ b.size) with _ | j
      · rw [hfi] at h
        have hkm := chooseBlock_key_mem size rest key i h
        have hne : ¬k = key := fun he => absurd (h1 key hkm) (by omega)
        obtain ⟨b, m1, hfr, hb, hkey⟩ := chooseBlock_link size rest h2 key i h
        exact ⟨b, (k, v) :: m1, by simp [freeRemove, if_neg hne, hfr], hb, hkey⟩
      · rw [hfi] at h
        simp only [Option.some.injEq, Prod.mk.injEq] at h
        obtain ⟨hk, hi⟩ := h
        subst hk
        subst hi
        obtain ⟨hlen, hpred, _⟩ := List.findIdx?_eq_some_iff_getElem.mp hfi
        have hget : v.get? j = some (v.get ⟨j, hlen⟩) := by
          rw [List.get?_eq_getElem?, List.getElem?_eq_getElem hlen]
          rfl
        refine ⟨v.get ⟨j, hlen⟩,
          if (v.eraseIdx j).isEmpty then rest else (k, v.eraseIdx j) :: rest,
          ?_, by simpa using hpred, hsk⟩
        simp only [freeRemove, eq_self_iff_true, if_true, hget]
        split <;> rfl
    · simp only [chooseBlock, if_neg hsk] at h
      have hkm := chooseBlock_key_mem size rest key i h
      have hne : ¬k = key := fun he => absurd (h1 key hkm) (by omega)
      obtain ⟨b, m1, hfr, hb, hkey⟩ := chooseBlock_link size rest h2 key i h
      exact ⟨b, (k, v) :: m1, by simp [freeRemove, if_neg hne, hfr], hb, hkey⟩

theorem chooseBlock_min (size : Nat) :
    ∀ (m : FreeMap), (m.map Prod.fst).Pairwise (· < ·) →
      (∀ kv ∈ m, ∀ x ∈ kv.2, MemoryBlock.size x = kv.1) →
      ∀ key i, chooseBlock size m = some (key, i) →
        ∀ b ∈ flatF m, size ≤ b.size → key ≤ b.size
  | [], _, _, key, i, h => by simp [chooseBlock] at h
  | (k, v) :: rest, hs, hkd, key, i, h => by
    simp only [List.map_cons, List.pairwise_cons] at hs
    obtain ⟨h1, h2⟩ := hs
    intro b hb hsb
    rw [flatF_cons, List.mem_append] at hb
    by_cases hsk : size ≤ k
    · simp only [chooseBlock, if_pos hsk] at h
      rcases hfi : v.findIdx? (fun b => size ≤ b.size) with _ | j
      · rw [hfi] at h
        rcases hb with hb | hb
        · have := List.findIdx?_eq_none_iff.mp hfi b hb
          simp only [decide_eq_false_iff_not] at this
          omega
        · exact chooseBlock_min size rest h2 (fun a ha => hkd a (by simp [ha])) key i h b hb hsb
      · rw [hfi] at h
        simp only [Option.some.injEq, Prod.mk.injEq] at h
        obtain ⟨hk, _⟩ := h
        subst hk
        rcases hb with hb | hb
        · have := hkd (k, v) (by simp) b hb
          omega
        · obtain ⟨kv, hkv, hbkv⟩ := mem_flatF.mp hb
          have hsz := hkd kv (by simp [hkv]) b hbkv
          have hlt := h1 kv.1 (List.mem_map.mpr ⟨kv, hkv, rfl⟩)
          omega
    · simp only [chooseBlock, if_neg hsk] at h
      rcases hb with hb | hb
      · have := hkd (k, v) (by simp) b hb
        omega
      · exact chooseBlock_min size rest h2 (fun a ha => hkd a (by simp [ha])) key i h b hb hsb

theorem chooseBlock_none (size : Nat) :
    ∀ (m : FreeMap), (∀ kv ∈ m, ∀ x ∈ kv.2, MemoryBlock.size x = kv.1) →
      chooseBlock size m = none → ∀ b ∈ flatF m, b.size < size
  | [], _, _ => by simp [flatF]
  | (k, v) :: rest, hkd, h => by
    intro b hb
    rw [flatF_cons, List.mem_append] at hb
    by_cases hsk : size ≤ k
    · simp only [chooseBlock, if_pos hsk] at h
      rcases hfi : v.findIdx? (fun b => size ≤ b.size) with _ | j
      · rw [hfi] at h
        rcases hb with hb | hb
        · have := List.findIdx?_eq_none_iff.mp hfi b hb
          simp only [decide_eq_false_iff_not] at this
          omega
        · exact chooseBlock_none size rest (fun a ha => hkd a (by simp [ha])) h b hb
      · rw [hfi] at h
        simp at h
    · simp only [chooseBlock, if_neg hsk] at h
      rcases hb with hb | hb
      · have := hkd (k, v) (by simp) b hb
        omega
      · exact chooseBlock_none size rest (fun a ha => hkd a (by simp [ha])) h b hb

theorem allocGet_allocInsert (id : Nat) (b : MemoryBlock) :
    ∀ m : AllocMap, allocGet id (allocInsert id b m) = some b
  | [] => by simp [allocInsert, allocGet]
  | (i, b1) :: rest => by
    by_cases hlt : id < i
    · simp [allocInsert, if_pos hlt, allocGet]
    · by_cases heq : id = i
      · simp [allocInsert, if_neg hlt, if_pos heq, allocGet]
      · simp [allocInsert, if_neg hlt, if_neg heq, allocGet, heq,
          allocGet_allocInsert id b rest]

theorem countP_allocInsert (p : MemoryBlock → Bool) (id : Nat) (b : MemoryBlock) :
    ∀ m : AllocMap, id ∉ m.map Prod.fst →
      ((allocInsert id b m).map Prod.snd).countP p
        = (m.map Prod.snd).countP p + (if p b then 1 else 0)
  | [], _ => by simp [allocInsert, List.countP_cons]
  | (i, b1) :: rest, hid => by
    simp only [List.map_cons, List.mem_cons] at hid
    push_neg at hid
    by_cases hlt : id < i
    · simp only [allocInsert, if_pos hlt, List.map_cons, List.countP_cons]
    · simp only [allocInsert, if_neg hlt, if_neg hid.1, List.map_cons, List.countP_cons,
        countP_allocInsert p id b rest hid.2]
      omega

theorem mem_allocInsert_snd {x : MemoryBlock} (id : Nat) (b : MemoryBlock) :
    ∀ m : AllocMap, x ∈ (allocInsert id b m).map Prod.snd →
      x = b ∨ x ∈ m.map Prod.snd
  | [] => by simp [allocInsert]
  | (i, b1) :: rest => by
    by_cases hlt : id < i
    · simp only [allocInsert, if_pos hlt, List.map_cons, List.mem_cons]
      tauto
    · by_cases heq : id = i
      · simp only [allocInsert, if_neg hlt, if_pos heq, List.map_cons, List.mem_cons]
        tauto
      · simp only [allocInsert, if_neg hlt, if_neg heq, List.map_cons, List.mem_cons]
        intro h
        rcases h with h | h
        · tauto
        · rcases mem_allocInsert_snd id b rest h with h1 | h1 <;> tauto

theorem mem_allocInsert (id : Nat) (b : MemoryBlock) :
    ∀ (m : AllocMap) (kv : Nat × MemoryBlock), kv ∈ allocInsert id b m →
      kv = (id, b) ∨ kv ∈ m
  | [], kv => by simp [allocInsert]
  | (i, b1) :: rest, kv => by
    by_cases hlt : id < i
    · simp only [allocInsert, if_pos hlt, List.mem_cons]
      tauto
    · by_cases heq : id = i
      · simp only [allocInsert, if_neg hlt, if_pos heq, List.mem_cons]
        tauto
      · simp only [allocInsert, if_neg hlt, if_neg heq, List.mem_cons]
        intro h
        rcases h with h | h
        · tauto
        · rcases mem_allocInsert id b rest kv h with h1 | h1 <;> tauto

theorem allocRemove_eq_none (id : Nat) :
    ∀ (m m1 : AllocMap), allocRemove id m = (none, m1) →
      m1 = m ∧ allocGet id m = none
  | [], m1, h => by
    simp only [allocRemove, Prod.mk.injEq] at h
    simp [allocGet, h.2.symm]
  | (i, b) :: rest, m1, h => by
    by_cases heq : id = i
    · simp [allocRemove, if_pos heq] at h
    · rcases hp : allocRemove id rest with ⟨r, rest1⟩
      simp only [allocRemove, if_neg heq, hp, Prod.mk.injEq] at h
      obtain ⟨hr, hm1⟩ := h
      subst hr
      obtain ⟨h1, h2⟩ := allocRemove_eq_none id rest rest1 hp
      subst h1
      simp [allocGet, if_neg heq, h2, hm1.symm]

theorem allocRemove_some_get (id : Nat) :
    ∀ (m m1 : AllocMap) (b : MemoryBlock), allocRemove id m = (some b, m1) →
      allocGet id m = some b
  | [], m1, b, h => by simp [allocRemove] at h
  | (i, b1) :: rest, m1, b, h => by
    by_cases heq : id = i
    · simp only [allocRemove, if_pos heq, Prod.mk.injEq] at h
      simp [allocGet, if_pos heq, h.1]
    · rcases hp : allocRemove id rest with ⟨r, rest1⟩
      simp only [allocRemove, if_neg heq, hp, Prod.mk.injEq] at h
      obtain ⟨hr, _⟩ := h
      subst hr
      simp [allocGet, if_neg heq, allocRemove_some_get id rest rest1 b hp]

theorem allocGet_some_allocRemove (id : Nat) :
    ∀ (m : AllocMap) (b : MemoryBlock), allocGet id m = some b →
      (allocRemove id m).1 = some b
  | [], b, h => by simp [allocGet] at h
  | (i, b1) :: rest, b, h => by
    by_cases heq : id = i
    · simp only [allocGet, if_pos heq, Option.some.injEq] at h
      simp [allocRemove, if_pos heq, h]
    · simp only [allocGet, if_neg heq] at h
      rcases hp : allocRemove id rest with ⟨r, rest1⟩
      have := allocGet_some_allocRemove id rest b h
      rw [hp] at this
      simp [allocRemove, if_neg heq, hp, this]

theorem countP_allocRemove (p : MemoryBlock → Bool) (id : Nat) :
    ∀ (m m1 : AllocMap) (b : MemoryBlock), allocRemove id m = (some b, m1) →
      (m.map Prod.snd).countP p = (m1.map Prod.snd).countP p + (if p b then 1 else 0)
  | [], m1, b, h => by simp [allocRemove] at h
  | (i, b1) :: rest, m1, b, h => by
    by_cases heq : id = i
    · simp only [allocRemove, if_pos heq, Prod.mk.injEq, Option.some.injEq] at h
      obtain ⟨hb, hm1⟩ := h
      subst hb
      subst hm1
      simp only [List.map_cons, List.countP_cons]
    · rcases hp : allocRemove id rest with ⟨r, rest1⟩
      simp only [allocRemove, if_neg heq, hp, Prod.mk.injEq] at h
      obtain ⟨hr, hm1⟩ := h
      subst hr
      subst hm1
      simp only [List.map_cons, List.countP_cons,
        countP_allocRemove p id rest rest1 b hp]
      omega

theorem allocRemove_subset (id : Nat) :
    ∀ (m : AllocMap) (kv : Nat × MemoryBlock), kv ∈ (allocRemove id m).2 → kv ∈ m
  | [], kv => by simp [allocRemove]
  | (i, b1) :: rest, kv => by
    by_cases heq : id = i
    · simp only [allocRemove, if_pos heq]
      intro h
      exact List.mem_cons.mpr (Or.inr h)
    · rcases hp : allocRemove id rest with ⟨r, rest1⟩
      simp only [allocRemove, if_neg heq, hp, List.mem_cons]
      intro h
      rcases h with h | h
      · simp [h]
      · have := allocRemove_subset id rest kv
        rw [hp] at this
        exact Or.inr (this h)

theorem allocGet_mem_snd (id : Nat) :
    ∀ (m : AllocMap) (b : MemoryBlock), allocGet id m = some b → b ∈ m.map Prod.snd
  | [], b, h => by simp [allocGet] at h
  | (i, b1) :: rest, b, h => by
    by_cases heq : id = i
    · simp only [allocGet, if_pos heq, Option.some.injEq] at h
      simp [h]
    · simp only [allocGet, if_neg heq] at h
      simp [allocGet_mem_snd id rest b h]

theorem freeRemove_size_eq (key i : Nat) :
    ∀ (m m1 : FreeMap) (b : MemoryBlock),
      (∀ kv ∈ m, ∀ x ∈ kv.2, MemoryBlock.size x = kv.1) →
      freeRemove key i m = (some b, m1) → b.size = key
  | [], m1, b, _, h => by simp [freeRemove] at h
  | (k, v) :: rest, m1, b, hkd, h => by
    by_cases hk : k = key
    · simp only [freeRemove, if_pos hk] at h
      subst hk
      by_cases he : (v.eraseIdx i).isEmpty
      · rw [if_pos he] at h
        simp only [Prod.mk.injEq] at h
        exact hkd (k, v) (by simp) b (List.get?_mem h.1)
      · rw [if_neg he] at h
        simp only [Prod.mk.injEq] at h
        exact hkd (k, v) (by simp) b (List.get?_mem h.1)
    · rcases hp : freeRemove key i rest with ⟨r, rest1⟩
      simp only [freeRemove, if_neg hk, hp, Prod.mk.injEq] at h
      obtain ⟨hr, _⟩ := h
      subst hr
      exact freeRemove_size_eq key i rest rest1 b (fun a ha => hkd a (by simp [ha])) hp

theorem insert_cases (s : MemoryManager) (size : Nat) (data : List Nat)
    (r : Option Nat) (s1 : MemoryManager)
    (h : s.insert size data = some (r, s1)) :
    (chooseBlock size s.free_blocks = none ∧ r = none ∧ s1 = s) ∨
    (∃ key index b free1,
      chooseBlock size s.free_blocks = some (key, index) ∧
      freeRemove key index s.free_blocks = (some b, free1) ∧
      size ≤ data.length ∧ b.start + size ≤ MEMORY_SIZE ∧
      r = some s.next_id ∧
      s1 = ⟨writeBytes s.memory b.start (data.take size),
            if size < b.size then
              freeInsert (b.size - size) ⟨b.start + size, b.size - size, false, none⟩ free1
            else free1,
            allocInsert s.next_id ⟨b.start, size, true, some s.next_id⟩ s.allocated_blocks,
            s.next_id + 1⟩) := by
  unfold MemoryManager.insert at h
  split at h
  · rename_i hc
    simp only [Option.some.injEq, Prod.mk.injEq] at h
    exact Or.inl ⟨hc, h.1.symm, h.2.symm⟩
  · rename_i key index hc
    split at h
    · simp at h
    · rename_i b free1 hf
      split at h
      · rename_i hcond
        simp only [Option.some.injEq, Prod.mk.injEq] at h
        exact Or.inr ⟨key, index, b, free1, hc, hf, hcond.1, hcond.2,
          h.1.symm, h.2.symm⟩
      · simp at h

theorem update_cases (s : MemoryManager) (id : Nat) (nd : List Nat) (s1 : MemoryManager)
    (h : s.update id nd = some s1) :
    (allocGet id s.allocated_blocks = none ∧ s1 = s) ∨
    (∃ b, allocGet id s.allocated_blocks = some b ∧ nd.length ≤ b.size ∧
      b.start + nd.length ≤ MEMORY_SIZE ∧
      s1 = { s with memory := writeBytes s.memory b.start nd }) ∨
    (∃ b, allocGet id s.allocated_blocks = some b ∧ b.size < nd.length ∧ s1 = s) := by
  unfold MemoryManager.update at h
  split at h
  · rename_i hg
    simp only [Option.some.injEq] at h
    exact Or.inl ⟨hg, h.symm⟩
  · rename_i b hg
    split at h
    · rename_i hlen
      split at h
      · rename_i hbd
        simp only [Option.some.injEq] at h
        exact Or.inr (Or.inl ⟨b, hg, hlen, hbd, h.symm⟩)
      · simp at h
    · rename_i hlen
      simp only [Option.some.injEq] at h
      exact Or.inr (Or.inr ⟨b, hg, by omega, h.symm⟩)

theorem delete_cases (s : MemoryManager) (id : Nat) :
    (allocGet id s.allocated_blocks = none ∧ s.delete id = s) ∨
    (∃ b alloc1, allocRemove id s.allocated_blocks = (some b, alloc1) ∧
      allocGet id s.allocated_blocks = some b ∧
      s.delete id = { s with
        allocated_blocks := alloc1
        free_blocks := freeInsert b.size ⟨b.start, b.size, false, none⟩ s.free_blocks }) := by
  unfold MemoryManager.delete
  rcases hp : allocRemove id s.allocated_blocks with ⟨ob, alloc1⟩
  rcases ob with _ | b
  · exact Or.inl ⟨(allocRemove_eq_none id _ _ hp).2, rfl⟩
  · exact Or.inr ⟨b, alloc1, rfl, allocRemove_some_get id _ _ _ hp, rfl⟩

theorem wf_new : WF MemoryManager.new := by
  constructor
  · intro a
    simp only [cov, blocksOf, freeList, allocList, MemoryManager.new, flatF,
      List.map_cons, List.map_nil, List.flatten, List.append_nil, List.countP_cons,
      List.countP_nil, inRange, Bool.and_eq_true, decide_eq_true_eq]
    split_ifs <;> omega
  · intro b hb
    simp only [blocksOf, freeList, allocList, MemoryManager.new, flatF, List.map_cons,
      List.map_nil, List.flatten, List.append_nil, List.mem_cons,
      List.not_mem_nil, or_false, List.mem_singleton] at hb
    subst hb
    simp
  · intro kv hkv x hx
    simp only [MemoryManager.new, List.mem_singleton] at hkv
    subst hkv
    simp only [List.mem_singleton] at hx
    subst hx
    rfl
  · intro kv hkv
    simp only [MemoryManager.new, List.mem_singleton] at hkv
    subst hkv
    simp
  · simp [MemoryManager.new]
  · intro kv hkv
    simp [MemoryManager.new] at hkv

theorem freeList_eq (s : MemoryManager) : freeList s = flatF s.free_blocks := rfl

theorem cov_eq (s : MemoryManager) (a : Nat) :
    cov s a = (flatF s.free_blocks).countP (fun b => inRange b a)
      + (s.allocated_blocks.map Prod.snd).countP (fun b => inRange b a) := by
  simp [cov, blocksOf, freeList, allocList, flatF, List.countP_append]

theorem ite_inRange_split (b : MemoryBlock) (sz1 : Nat) (h : sz1 ≤ b.size)
    (al1 al2 : Bool) (i1 i2 : Option Nat) (a : Nat) :
    (if inRange b a then (1 : Nat) else 0)
      = (if inRange ⟨b.start, sz1, al1, i1⟩ a then 1 else 0)
        + (if inRange ⟨b.start + sz1, b.size - sz1, al2, i2⟩ a then 1 else 0) := by
  simp only [inRange, Bool.and_eq_true, decide_eq_true_eq]
  split_ifs <;> omega

theorem wf_insert {s : MemoryManager} {size : Nat} {data : List Nat}
    {r : Option Nat} {s1 : MemoryManager} (hwf : WF s)
    (h : s.insert size data = some (r, s1)) : WF s1 := by
  rcases insert_cases s size data r s1 h with ⟨_, _, hs1⟩ |
    ⟨key, index, b, free1, hc, hf, hdl, hbd, hr, hs1⟩
  · rw [hs1]; exact hwf
  · obtain ⟨b', m1', hf', hsb', _⟩ :=
      chooseBlock_link size s.free_blocks hwf.sortedFree key index hc
    rw [hf] at hf'
    simp only [Prod.mk.injEq, Option.some.injEq] at hf'
    obtain ⟨hbb, hmm⟩ := hf'
    subst hbb
    subst hmm
    have hsb : size ≤ b.size := hsb'
    have hfresh : s.next_id ∉ s.allocated_blocks.map Prod.fst := by
      intro hmem
      obtain ⟨kv, hkv, hfst⟩ := List.mem_map.mp hmem
      have := hwf.idsLt kv hkv
      omega
    have hbmem : b ∈ blocksOf s := by
      rw [blocksOf, freeList_eq]
      exact List.mem_append_left _ (freeRemove_mem key index s.free_blocks free1 b hf)
    have hk1 : ∀ kv ∈ free1, ∀ x ∈ kv.2, MemoryBlock.size x = kv.1 := by
      have := freeRemove_keyed key index s.free_blocks hwf.keyed
      rw [hf] at this
      exact this
    have hn1 : ∀ kv ∈ free1, kv.2 ≠ ([] : List MemoryBlock) := by
      have := freeRemove_nonempty key index s.free_blocks hwf.freeNE
      rw [hf] at this
      exact this
    have hs1srt : (free1.map Prod.fst).Pairwise (· < ·) := by
      have := List.Pairwise.sublist (freeRemove_keys_sublist key index s.free_blocks)
        hwf.sortedFree
      rw [hf] at this
      exact this
    have hsub1 : ∀ x ∈ flatF free1, x ∈ flatF s.free_blocks := by
      intro x hx
      have := freeRemove_subset key index s.free_blocks x
      rw [hf] at this
      exact this hx
    subst hs1
    constructor
    · intro a
      have e0 := hwf.covOne a
      rw [cov_eq] at e0
      rw [cov_eq]
      dsimp only
      have e1 := freeRemove_countP (fun bb => inRange bb a) key index
        s.free_blocks free1 b hf
      have e2 := countP_allocInsert (fun bb => inRange bb a) s.next_id
        ⟨b.start, size, true, some s.next_id⟩ s.allocated_blocks hfresh
      beta_reduce at e1 e2
      by_cases hsz : size < b.size
      · rw [if_pos hsz]
        have e3 := countP_flatF_freeInsert (fun bb => inRange bb a) (b.size - size)
          ⟨b.start + size, b.size - size, false, none⟩ free1
        have e4 := ite_inRange_split b size hsb true false (some s.next_id) none a
        omega
      · rw [if_neg hsz]
        have hbeq : size = b.size := by omega
        have e4 : (if inRange b a then (1 : Nat) else 0)
            = if inRange ⟨b.start, size, true, some s.next_id⟩ a then 1 else 0 := by
          simp only [inRange, hbeq]
        omega
    · intro x hx
      rw [blocksOf, List.mem_append, freeList_eq] at hx
      dsimp only at hx
      rcases hx with hx | hx
      · by_cases hsz : size < b.size
        · rw [if_pos hsz] at hx
          rcases mem_flatF_freeInsert _ _ free1 hx with rfl | hx1
          · have := hwf.bounded b hbmem
            dsimp only
            omega
          · have hxm : x ∈ blocksOf s := by
              rw [blocksOf, freeList_eq]
              exact List.mem_append_left _ (hsub1 x hx1)
            exact hwf.bounded x hxm
        · rw [if_neg hsz] at hx
          have hxm : x ∈ blocksOf s := by
            rw [blocksOf, freeList_eq]
            exact List.mem_append_left _ (hsub1 x hx)
          exact hwf.bounded x hxm
      · rcases mem_allocInsert_snd s.next_id _ s.allocated_blocks hx with rfl | hx1
        · dsimp only
          exact hbd
        · exact hwf.bounded x (List.mem_append_right _ hx1)
    · intro kv hkv x hx
      dsimp only at hkv
      by_cases hsz : size < b.size
      · rw [if_pos hsz] at hkv
        exact @freeInsert_keyed (b.size - size)
          ⟨b.start + size, b.size - size, false, none⟩ rfl free1 hk1 kv hkv x hx
      · rw [if_neg hsz] at hkv
        exact hk1 kv hkv x hx
    · intro kv hkv
      dsimp only at hkv
      by_cases hsz : size < b.size
      · rw [if_pos hsz] at hkv
        exact freeInsert_ne _ _ free1 hn1 kv hkv
      · rw [if_neg hsz] at hkv
        exact hn1 kv hkv
    · dsimp only
      by_cases hsz : size < b.size
      · rw [if_pos hsz]
        exact freeInsert_sorted _ _ free1 hs1srt
      · rw [if_neg hsz]
        exact hs1srt
    · intro kv hkv
      dsimp only at hkv ⊢
      rcases mem_allocInsert s.next_id _ s.allocated_blocks kv hkv with rfl | hkv1
      · omega
      · have := hwf.idsLt kv hkv1
        omega

theorem wf_delete {s : MemoryManager} (hwf : WF s) (id : Nat) : WF (s.delete id) := by
  rcases delete_cases s id with ⟨_, heq⟩ | ⟨b, alloc1, hrm, hget, heq⟩
  · rw [heq]; exact hwf
  · rw [heq]
    have hbmem : b ∈ blocksOf s :=
      List.mem_append_right _ (allocGet_mem_snd id s.allocated_blocks b hget)
    constructor
    · intro a
      have e0 := hwf.covOne a
      rw [cov_eq] at e0
      rw [cov_eq]
      dsimp only
      have e1 := countP_flatF_freeInsert (fun bb => inRange bb a) b.size
        ⟨b.start, b.size, false, none⟩ s.free_blocks
      have e2 := countP_allocRemove (fun bb => inRange bb a) id
        s.allocated_blocks alloc1 b hrm
      beta_reduce at e1 e2
      have e3 : (if inRange ⟨b.start, b.size, false, none⟩ a then (1 : Nat) else 0)
          = if inRange b a then 1 else 0 := rfl
      omega
    · intro x hx
      rw [blocksOf, List.mem_append, freeList_eq] at hx
      dsimp only at hx
      rcases hx with hx | hx
      · rcases mem_flatF_freeInsert _ _ s.free_blocks hx with rfl | hx1
        · dsimp only
          have := hwf.bounded b hbmem
          omega
        · exact hwf.bounded x (List.mem_append_left _ hx1)
      · obtain ⟨kv, hkv, rfl⟩ := List.mem_map.mp hx
        have hkv2 : kv ∈ s.allocated_blocks := by
          have := allocRemove_subset id s.allocated_blocks kv
          rw [hrm] at this
          exact this hkv
        exact hwf.bounded kv.2 (List.mem_append_right _ (List.mem_map.mpr ⟨kv, hkv2, rfl⟩))
    · intro kv hkv x hx
      dsimp only at hkv
      exact @freeInsert_keyed b.size ⟨b.start, b.size, false, none⟩ rfl
        s.free_blocks hwf.keyed kv hkv x hx
    · intro kv hkv
      dsimp only at hkv
      exact freeInsert_ne _ _ s.free_blocks hwf.freeNE kv hkv
    · dsimp only
      exact freeInsert_sorted _ _ s.free_blocks hwf.sortedFree
    · intro kv hkv
      dsimp only at hkv ⊢
      have hkv2 : kv ∈ s.allocated_blocks := by
        have := allocRemove_subset id s.allocated_blocks kv
        rw [hrm] at this
        exact this hkv
      exact hwf.idsLt kv hkv2

theorem wf_update {s : MemoryManager} {id : Nat} {nd : List Nat} {s1 : MemoryManager}
    (hwf : WF s) (h : s.update id nd = some s1) : WF s1 := by
  rcases update_cases s id nd s1 h with ⟨_, rfl⟩ | ⟨b, _, _, _, rfl⟩ | ⟨b, _, _, rfl⟩
  · exact hwf
  · exact ⟨hwf.covOne, hwf.bounded, hwf.keyed, hwf.freeNE, hwf.sortedFree, hwf.idsLt⟩
  · exact hwf

theorem delete_next_id (s : MemoryManager) (id : Nat) :
    (s.delete id).next_id = s.next_id := by
  rcases delete_cases s id with ⟨_, heq⟩ | ⟨b, alloc1, _, _, heq⟩ <;> rw [heq]

theorem update_next_id {s : MemoryManager} {id : Nat} {nd : List Nat} {s1 : MemoryManager}
    (h : s.update id nd = some s1) : s1.next_id = s.next_id := by
  rcases update_cases s id nd s1 h with ⟨_, rfl⟩ | ⟨b, _, _, _, rfl⟩ | ⟨b, _, _, rfl⟩ <;> rfl

theorem step_next {o : Op} {s : MemoryManager} {r : Option Nat} {s1 : MemoryManager}
    (h : o.step s = some (r, s1)) :
    s.next_id ≤ s1.next_id ∧
      ∀ i, r = some i → i = s.next_id ∧ s1.next_id = s.next_id + 1 := by
  cases o with
  | insert size data =>
    rcases insert_cases s size data r s1 h with ⟨_, hr, rfl⟩ |
      ⟨key, index, b, free1, _, _, _, _, hr, rfl⟩
    · subst hr
      exact ⟨le_refl _, by simp⟩
    · subst hr
      refine ⟨by dsimp only; omega, ?_⟩
      intro i hi
      obtain rfl := (Option.some.inj hi).symm
      exact ⟨rfl, rfl⟩
  | delete id =>
    simp only [Op.step, Option.some.injEq, Prod.mk.injEq] at h
    obtain ⟨hr, hs⟩ := h
    subst hr
    rw [← hs, delete_next_id]
    exact ⟨le_refl _, by simp⟩
  | find id =>
    simp only [Op.step, Option.some.injEq, Prod.mk.injEq] at h
    obtain ⟨hr, hs⟩ := h
    subst hr
    rw [← hs]
    exact ⟨le_refl _, by simp⟩
  | read id =>
    simp only [Op.step, Option.some.injEq, Prod.mk.injEq] at h
    obtain ⟨hr, hs⟩ := h
    subst hr
    rw [← hs]
    exact ⟨le_refl _, by simp⟩
  | update id nd =>
    simp only [Op.step, Option.map_eq_some'] at h
    obtain ⟨s2, hu, hp⟩ := h
    simp only [Prod.mk.injEq] at hp
    obtain ⟨hr, hs⟩ := hp
    subst hr
    rw [← hs, update_next_id hu]
    exact ⟨le_refl _, by simp⟩
  | dump =>
    simp only [Op.step, Option.some.injEq, Prod.mk.injEq] at h
    obtain ⟨hr, hs⟩ := h
    subst hr
    rw [← hs]
    exact ⟨le_refl _, by simp⟩

theorem wf_step {o : Op} {s : MemoryManager} {r : Option Nat} {s1 : MemoryManager}
    (hwf : WF s) (h : o.step s = some (r, s1)) : WF s1 := by
  cases o with
  | insert size data => exact wf_insert hwf h
  | delete id =>
    simp only [Op.step, Option.some.injEq, Prod.mk.injEq] at h
    rw [← h.2]
    exact wf_delete hwf id
  | find id =>
    simp only [Op.step, Option.some.injEq, Prod.mk.injEq] at h
    rw [← h.2]
    exact hwf
  | read id =>
    simp only [Op.step, Option.some.injEq, Prod.mk.injEq] at h
    rw [← h.2]
    exact hwf
  | update id nd =>
    simp only [Op.step, Option.map_eq_some'] at h
    obtain ⟨s2, hu, hp⟩ := h
    simp only [Prod.mk.injEq] at hp
    rw [← hp.2]
    exact wf_update hwf hu
  | dump =>
    simp only [Op.step, Option.some.injEq, Prod.mk.injEq] at h
    rw [← h.2]
    exact hwf

theorem runIds_spec :
    ∀ (ops : List Op) (s st : MemoryManager) (ids : List Nat),
      runIds ops s = some (st, ids) →
      (WF s → WF st) ∧ s.next_id ≤ st.next_id ∧
      (∀ i ∈ ids, s.next_id ≤ i ∧ i < st.next_id) ∧ ids.Pairwise (· < ·)
  | [], s, st, ids, h => by
    simp only [runIds, Option.some.injEq, Prod.mk.injEq] at h
    obtain ⟨h1, h2⟩ := h
    subst h1
    subst h2
    exact ⟨fun hwf => hwf, le_refl _, by simp, by simp⟩
  | o :: rest, s, st, ids, h => by
    simp only [runIds] at h
    rcases hs : o.step s with _ | p
    · rw [hs] at h
      simp at h
    · rw [hs] at h
      rcases p with ⟨r, s1⟩
      simp only [Option.map_eq_some'] at h
      obtain ⟨⟨st2, ids2⟩, hrun, hp⟩ := h
      simp only [Prod.mk.injEq] at hp
      obtain ⟨hst, hids⟩ := hp
      subst hst
      subst hids
      obtain ⟨ihwf, ihle, ihbd, ihpw⟩ := runIds_spec rest s1 st2 ids2 hrun
      obtain ⟨hle, hret⟩ := step_next hs
      refine ⟨fun hwf => ihwf (wf_step hwf hs), by omega, ?_, ?_⟩
      · intro i hi
        rcases r with _ | i0
        · simp only [Option.toList, List.nil_append] at hi
          have := ihbd i hi
          omega
        · obtain ⟨hi0, hnext⟩ := hret i0 rfl
          simp only [Option.toList, List.cons_append, List.mem_cons, List.nil_append] at hi
          rcases hi with rfl | hi
          · omega
          · have := ihbd i hi
            omega
      · rcases r with _ | i0
        · simpa using ihpw
        · obtain ⟨hi0, hnext⟩ := hret i0 rfl
          simp only [Option.toList, List.singleton_append, List.pairwise_cons]
          refine ⟨?_, ihpw⟩
          intro j hj
          have := ihbd j hj
          omega

theorem disjoint_of_countP (l : List MemoryBlock)
    (h : ∀ a, l.countP (fun b => inRange b a) ≤ 1) : PairwiseDisjoint l := by
  induction l with
  | nil => exact List.Pairwise.nil
  | cons x t ih =>
    rw [PairwiseDisjoint, List.pairwise_cons]
    constructor
    · rintro b1 hb1 a ⟨hx, hb⟩
      have hc := h a
      rw [List.countP_cons, if_pos hx] at hc
      have hpos : 0 < t.countP (fun b => inRange b a) :=
        List.countP_pos.mpr ⟨b1, hb1, hb⟩
      omega
    · refine ih ?_
      intro a
      have hc := h a
      rw [List.countP_cons] at hc
      omega

theorem covers_of_countP (l : List MemoryBlock)
    (h : ∀ a, l.countP (fun b => inRange b a) = if a < MEMORY_SIZE then 1 else 0) :
    CoversArena l := by
  intro a
  constructor
  · rintro ⟨b, hb, hr⟩
    by_contra hge
    have h1 := h a
    rw [if_neg hge] at h1
    have hpos : 0 < l.countP (fun b => inRange b a) := List.countP_pos.mpr ⟨b, hb, hr⟩
    omega
  · intro hlt
    have h1 := h a
    rw [if_pos hlt] at h1
    have hpos : 0 < l.countP (fun b => inRange b a) := by omega
    exact List.countP_pos.mp hpos

/-- C1: after any finite sequence of insert, delete, find/read, update and
dump operations starting from a newly initialized `MemoryManager`, the
ranges of the free blocks and of the allocated blocks are pairwise disjoint
and their union is exactly the arena `[0, MEMORY_SIZE)`. -/
theorem partition_invariant (ops : List Op) (st : MemoryManager) (ids : List Nat)
    (h : runIds ops MemoryManager.new = some (st, ids)) :
    PairwiseDisjoint (blocksOf st) ∧ CoversArena (blocksOf st) := by
  have hwf : WF st := (runIds_spec ops _ st ids h).1 wf_new
  constructor
  · apply disjoint_of_countP
    intro a
    have h1 : (blocksOf st).countP (fun b => inRange b a)
        = if a < MEMORY_SIZE then 1 else 0 := hwf.covOne a
    rw [h1]
    split <;> omega
  · exact covers_of_countP _ (fun a => hwf.covOne a)

/-- The operation list of the C1 witness run. -/
def c1ops : List Op :=
  [Op.insert 4 [1, 2, 3, 4], Op.delete 0, Op.insert 2 [9, 9], Op.dump]

/-- The state after the C1 witness run. -/
def c1state : MemoryManager :=
  ((runIds c1ops MemoryManager.new).getD (MemoryManager.new, [])).1

/-- The ids collected by the C1 witness run. -/
def c1ids : List Nat :=
  ((runIds c1ops MemoryManager.new).getD (MemoryManager.new, [])).2

theorem partition_invariant_witness :
    PairwiseDisjoint (blocksOf c1state) ∧ CoversArena (blocksOf c1state) :=
  partition_invariant c1ops c1state c1ids rfl

/-- C6: across any operation sequence from a fresh manager, the identifiers
returned by the successful inserts are strictly increasing in order of
return — hence all distinct and never reused, deletes included. -/
theorem ids_strictly_increasing (ops : List Op) (st : MemoryManager)
    (ids : List Nat) (h : runIds ops MemoryManager.new = some (st, ids)) :
    ids.Pairwise (· < ·) :=
  (runIds_spec ops MemoryManager.new st ids h).2.2.2

/-- The operation list of the C6 witness run: an insert, a delete of the
first block, and two further inserts. -/
def c6ops : List Op :=
  [Op.insert 1 [5], Op.delete 0, Op.insert 1 [6], Op.insert 2 [7, 8]]

/-- The state after the C6 witness run. -/
def c6state : MemoryManager :=
  ((runIds c6ops MemoryManager.new).getD (MemoryManager.new, [])).1

/-- The ids collected by the C6 witness run. -/
def c6ids : List Nat :=
  ((runIds c6ops MemoryManager.new).getD (MemoryManager.new, [])).2

theorem ids_strictly_increasing_witness : c6ids.Pairwise (· < ·) :=
  ids_strictly_increasing c6ops c6state c6ids rfl

/-- C2: when `insert` succeeds, the free block it removes (through
`freeRemove`) has the minimum length `key` with `key ≥ size` among all
lengths of blocks present in the free index at call time, and the remainder
`(offset + size, key - size)` is re-inserted exactly when `key > size`. -/
theorem best_fit_minimal (s : MemoryManager) (size : Nat) (data : List Nat)
    (i : Nat) (s1 : MemoryManager) (hwf : WF s) (hpos : 0 < size)
    (h : s.insert size data = some (some i, s1)) :
    ∃ key index b free1,
      chooseBlock size s.free_blocks = some (key, index) ∧
      freeRemove key index s.free_blocks = (some b, free1) ∧
      b ∈ freeList s ∧ b.size = key ∧ size ≤ key ∧
      (∀ b1 ∈ freeList s, size ≤ b1.size → key ≤ b1.size) ∧
      s1.free_blocks = (if size < b.size then
        freeInsert (b.size - size) ⟨b.start + size, b.size - size, false, none⟩ free1
        else free1) := by
  rcases insert_cases s size data (some i) s1 h with ⟨_, hr, _⟩ |
    ⟨key, index, b, free1, hc, hf, _, _, hr, hs1⟩
  · simp at hr
  · refine ⟨key, index, b, free1, hc, hf, ?_, ?_, ?_, ?_, ?_⟩
    · exact freeRemove_mem key index s.free_blocks free1 b hf
    · exact freeRemove_size_eq key index s.free_blocks free1 b hwf.keyed hf
    · obtain ⟨b2, m2, hf2, hsb2, hsk2⟩ :=
        chooseBlock_link size s.free_blocks hwf.sortedFree key index hc
      exact hsk2
    · intro b1 hb1 hsb1
      exact chooseBlock_min size s.free_blocks hwf.sortedFree hwf.keyed key index
        hc b1 hb1 hsb1
    · rw [hs1]

/-- The state after the C2 witness insert. -/
def c2state : MemoryManager :=
  ((MemoryManager.new.insert 4 [1, 2, 3, 4]).getD (none, MemoryManager.new)).2

theorem best_fit_minimal_witness :
    ∃ key index b free1,
      chooseBlock 4 MemoryManager.new.free_blocks = some (key, index) ∧
      freeRemove key index MemoryManager.new.free_blocks = (some b, free1) ∧
      b ∈ freeList MemoryManager.new ∧ b.size = key ∧ 4 ≤ key ∧
      (∀ b1 ∈ freeList MemoryManager.new, 4 ≤ b1.size → key ≤ b1.size) ∧
      c2state.free_blocks = (if 4 < b.size then
        freeInsert (b.size - 4) ⟨b.start + 4, b.size - 4, false, none⟩ free1
        else free1) :=
  best_fit_minimal MemoryManager.new 4 [1, 2, 3, 4] 0 c2state wf_new
    (by decide) rfl

theorem range_map_writeBytes (mem : Nat → Nat) (st : Nat) (d : List Nat) :
    (List.range d.length).map (fun k => writeBytes mem st d (st + k)) = d := by
  apply List.ext_getElem
  · simp
  · intro n h1 h2
    simp only [List.getElem_map, List.getElem_range]
    rw [writeBytes]
    rw [if_pos (by omega)]
    have hn : st + n - st = n := by omega
    rw [hn, List.getD_eq_getElem d 0 h2]

/-- C3: a successful `insert(size, data)` with `data.length ≥ size > 0`
returning id `i`, immediately followed by `find i`, yields exactly the
first `size` bytes of `data`. -/
theorem insert_find_roundtrip (s : MemoryManager) (size : Nat) (data : List Nat)
    (i : Nat) (s1 : MemoryManager) (hwf : WF s) (hpos : 0 < size)
    (hlen : size ≤ data.length)
    (h : s.insert size data = some (some i, s1)) :
    s1.find i = some (data.take size) := by
  rcases insert_cases s size data (some i) s1 h with ⟨_, hr, _⟩ |
    ⟨key, index, b, free1, hc, hf, hdl, hbd, hr, hs1⟩
  · simp at hr
  · obtain rfl : i = s.next_id := Option.some.inj hr
    subst hs1
    rw [MemoryManager.find]
    dsimp only
    rw [allocGet_allocInsert]
    have htk : (data.take size).length = size := by
      rw [List.length_take]
      omega
    have hmain := range_map_writeBytes s.memory b.start (data.take size)
    rw [htk] at hmain
    rw [Option.map_some']
    dsimp only
    rw [hmain]

/-- The state after the C3 witness insert. -/
def c3state : MemoryManager :=
  ((MemoryManager.new.insert 3 [7, 8, 9, 10]).getD (none, MemoryManager.new)).2

theorem insert_find_roundtrip_witness :
    c3state.find 0 = some ([7, 8, 9, 10].take 3) :=
  insert_find_roundtrip MemoryManager.new 3 [7, 8, 9, 10] 0 c3state wf_new
    (by decide) (by decide) rfl

/-- C4: `update` on an allocated block with a payload that fits overwrites
exactly the first `nd.length` bytes at the block's offset, leaves every
other arena byte (and both indices and the id counter — the record update
touches only `memory`) unchanged, and a subsequent `find` returns the new
payload followed by the stale trailing bytes. -/
theorem update_semantics (s : MemoryManager) (id : Nat) (nd : List Nat)
    (b : MemoryBlock) (hwf : WF s)
    (hget : allocGet id s.allocated_blocks = some b)
    (hlen : nd.length ≤ b.size) :
    s.update id nd = some { s with memory := writeBytes s.memory b.start nd } ∧
    (∀ a, a < b.start ∨ b.start + nd.length ≤ a →
      writeBytes s.memory b.start nd a = s.memory a) ∧
    ({ s with memory := writeBytes s.memory b.start nd } : MemoryManager).find id
      = some (nd ++ (List.range (b.size - nd.length)).map
          fun k => s.memory (b.start + nd.length + k)) := by
  have hbmem : b ∈ blocksOf s :=
    List.mem_append_right _ (allocGet_mem_snd id s.allocated_blocks b hget)
  have hbd : b.start + b.size ≤ MEMORY_SIZE := hwf.bounded b hbmem
  refine ⟨?_, ?_, ?_⟩
  · simp only [MemoryManager.update, hget]
    rw [if_pos hlen, if_pos (by omega)]
  · intro a ha
    rw [writeBytes]
    rw [if_neg (by omega)]
  · rw [MemoryManager.find]
    rw [hget, Option.map_some']
    dsimp only
    have hmaps : (List.range b.size).map
        (fun k => writeBytes s.memory b.start nd (b.start + k))
        = nd ++ (List.range (b.size - nd.length)).map
            fun k => s.memory (b.start + nd.length + k) := by
      apply List.ext_getElem
      · simp only [List.length_map, List.length_range, List.length_append]
        omega
      · intro n h1 h2
        simp only [List.getElem_map, List.getElem_range]
        by_cases hn : n < nd.length
        · rw [writeBytes]
          rw [if_pos (by omega)]
          have hsub : b.start + n - b.start = n := by omega
          rw [hsub, List.getD_eq_getElem nd 0 hn, List.getElem_append_left hn]
        · rw [writeBytes]
          rw [if_neg (by omega)]
          rw [List.getElem_append_right (by omega)]
          simp only [List.getElem_map, List.getElem_range]
          congr 1
          omega
    rw [hmaps]

/-- The state after the C4 witness insert of a ten byte block. -/
def c4base : MemoryManager :=
  ((MemoryManager.new.insert 10 [1, 2, 3, 4, 5, 6, 7, 8, 9, 10]).getD
    (none, MemoryManager.new)).2

theorem c4base_wf : WF c4base :=
  wf_insert wf_new
    (rfl : MemoryManager.new.insert 10 [1, 2, 3, 4, 5, 6, 7, 8, 9, 10]
      = some (some 0, c4base))

theorem update_semantics_witness :
    c4base.update 0 [90, 91, 92, 93]
      = some { c4base with memory := writeBytes c4base.memory 0 [90, 91, 92, 93] } ∧
    (∀ a, a < 0 ∨ 0 + [90, 91, 92, 93].length ≤ a →
      writeBytes c4base.memory 0 [90, 91, 92, 93] a = c4base.memory a) ∧
    ({ c4base with memory := writeBytes c4base.memory 0 [90, 91, 92, 93] }
        : MemoryManager).find 0
      = some ([90, 91, 92, 93] ++ (List.range (10 - [90, 91, 92, 93].length)).map
          fun k => c4base.memory (0 + [90, 91, 92, 93].length + k)) :=
  update_semantics c4base 0 [90, 91, 92, 93] ⟨0, 10, true, some 0⟩ c4base_wf
    rfl (by decide)

/-- C5: failing operations change nothing.  `insert` returns `None` exactly
when every free block is smaller than the request, and then the state is
returned unchanged; `delete`, `find` and `update` on an absent id, and
`update` with an oversized payload, likewise leave the state unchanged. -/
theorem failure_atomicity (s : MemoryManager) (hwf : WF s) :
    (∀ size data s1, s.insert size data = some (none, s1) →
      s1 = s ∧ ∀ b ∈ freeList s, b.size < size) ∧
    (∀ size data, (∀ b ∈ freeList s, b.size < size) →
      s.insert size data = some (none, s)) ∧
    (∀ id, allocGet id s.allocated_blocks = none →
      s.delete id = s ∧ s.find id = none ∧ ∀ nd, s.update id nd = some s) ∧
    (∀ id nd b, allocGet id s.allocated_blocks = some b → b.size < nd.length →
      s.update id nd = some s) := by
  refine ⟨?_, ?_, ?_, ?_⟩
  · intro size data s1 h
    rcases insert_cases s size data none s1 h with ⟨hc, _, hs1⟩ |
      ⟨key, index, b, free1, _, _, _, _, hr, _⟩
    · exact ⟨hs1, chooseBlock_none size s.free_blocks hwf.keyed hc⟩
    · simp at hr
  · intro size data hnone
    rcases hc : chooseBlock size s.free_blocks with _ | ki
    · simp only [MemoryManager.insert, hc]
    · rcases ki with ⟨key, index⟩
      obtain ⟨b, m1, hf, hsb, _⟩ :=
        chooseBlock_link size s.free_blocks hwf.sortedFree key index hc
      have := hnone b (freeRemove_mem key index s.free_blocks m1 b hf)
      omega
  · intro id hget
    refine ⟨?_, ?_, ?_⟩
    · rcases delete_cases s id with ⟨_, heq⟩ | ⟨b2, alloc1, _, hget2, _⟩
      · exact heq
      · rw [hget] at hget2
        simp at hget2
    · rw [MemoryManager.find, hget]
      rfl
    · intro nd
      simp only [MemoryManager.update, hget]
  · intro id nd b hget hlt
    simp only [MemoryManager.update, hget]
    rw [if_neg (by omega)]

theorem failure_atomicity_witness :
    (∀ size data s1, MemoryManager.new.insert size data = some (none, s1) →
      s1 = MemoryManager.new ∧ ∀ b ∈ freeList MemoryManager.new, b.size < size) ∧
    (∀ size data, (∀ b ∈ freeList MemoryManager.new, b.size < size) →
      MemoryManager.new.insert size data = some (none, MemoryManager.new)) ∧
    (∀ id, allocGet id MemoryManager.new.allocated_blocks = none →
      MemoryManager.new.delete id = MemoryManager.new ∧
      MemoryManager.new.find id = none ∧
      ∀ nd, MemoryManager.new.update id nd = some MemoryManager.new) ∧
    (∀ id nd b, allocGet id MemoryManager.new.allocated_blocks = some b →
      b.size < nd.length → MemoryManager.new.update id nd = some MemoryManager.new) :=
  failure_atomicity MemoryManager.new wf_new

/-- C8: under the contract `data.length ≥ size > 0` and on a well-formed
state, `insert` never goes out of bounds: any block obtained from the free
index satisfies `start + size ≤ MEMORY_SIZE`, and the panic branch of the
embedding (`none`) is unreachable. -/
theorem insert_no_oob (s : MemoryManager) (size : Nat) (data : List Nat)
    (hwf : WF s) (hpos : 0 < size) (hlen : size ≤ data.length) :
    (∀ key index b free1, chooseBlock size s.free_blocks = some (key, index) →
      freeRemove key index s.free_blocks = (some b, free1) →
      b.start + size ≤ MEMORY_SIZE) ∧
    s.insert size data ≠ none := by
  constructor
  · intro key index b free1 hc hf
    obtain ⟨b2, m2, hf2, hsb2, _⟩ :=
      chooseBlock_link size s.free_blocks hwf.sortedFree key index hc
    rw [hf] at hf2
    simp only [Prod.mk.injEq, Option.some.injEq] at hf2
    obtain ⟨hb, hm⟩ := hf2
    subst hb
    subst hm
    have hbd := hwf.bounded b
      (List.mem_append_left _ (freeRemove_mem key index s.free_blocks free1 b hf))
    omega
  · intro hnone
    rcases hc : chooseBlock size s.free_blocks with _ | ki
    · simp only [MemoryManager.insert, hc] at hnone
      exact Option.noConfusion hnone
    · rcases ki with ⟨key, index⟩
      obtain ⟨b, m1, hf, hsb, _⟩ :=
        chooseBlock_link size s.free_blocks hwf.sortedFree key index hc
      have hbd := hwf.bounded b
        (List.mem_append_left _ (freeRemove_mem key index s.free_blocks m1 b hf))
      simp only [MemoryManager.insert, hc, hf] at hnone
      rw [if_pos ⟨hlen, by omega⟩] at hnone
      simp at hnone

theorem insert_no_oob_witness :
    (∀ key index b free1,
      chooseBlock 4 MemoryManager.new.free_blocks = some (key, index) →
      freeRemove key index MemoryManager.new.free_blocks = (some b, free1) →
      b.start + 4 ≤ MEMORY_SIZE) ∧
    MemoryManager.new.insert 4 [1, 2, 3, 4] ≠ none :=
  insert_no_oob MemoryManager.new 4 [1, 2, 3, 4] wf_new (by decide) (by decide)

/-- C10: a successful `delete` never touches the arena bytes or the id
counter: memory and `next_id` are identical before and after, so the
released block's bytes keep their contents. -/
theorem delete_frame (s : MemoryManager) (id : Nat) (b : MemoryBlock)
    (hget : allocGet id s.allocated_blocks = some b) :
    (s.delete id).memory = s.memory ∧ (s.delete id).next_id = s.next_id ∧
    ∀ a, a < MEMORY_SIZE → (s.delete id).memory a = s.memory a := by
  rcases delete_cases s id with ⟨hnone, _⟩ | ⟨b2, alloc1, hrm, hget2, heq⟩
  · rw [hget] at hnone
    simp at hnone
  · rw [heq]
    exact ⟨rfl, rfl, fun a _ => rfl⟩

/-- The state after the C10 witness insert of a five byte block. -/
def c10base : MemoryManager :=
  ((MemoryManager.new.insert 5 [11, 12, 13, 14, 15]).getD
    (none, MemoryManager.new)).2

theorem delete_frame_witness :
    (c10base.delete 0).memory = c10base.memory ∧
    (c10base.delete 0).next_id = c10base.next_id ∧
    ∀ a, a < MEMORY_SIZE → (c10base.delete 0).memory a = c10base.memory a :=
  delete_frame c10base 0 ⟨0, 5, true, some 0⟩ rfl

/-- `BTreeMap::get` on the free index: the vector of free blocks stored
under length `k`, if any. -/
def freeLookup (k : Nat) : FreeMap → Option (List MemoryBlock)
  | [] => none
  | (k1, v) :: rest => if k = k1 then some v else freeLookup k rest

/-- The operation list of the C7 scenario: allocate two adjacent blocks of
size 4 and release both. -/
def c7ops : List Op :=
  [Op.insert 4 [1, 1, 1, 1], Op.insert 4 [2, 2, 2, 2], Op.delete 0, Op.delete 1]

/-- The state after the C7 scenario run. -/
def c7state : MemoryManager :=
  ((runIds c7ops MemoryManager.new).getD (MemoryManager.new, [])).1

/-- The ids collected by the C7 scenario run. -/
def c7ids : List Nat :=
  ((runIds c7ops MemoryManager.new).getD (MemoryManager.new, [])).2

/-- C7: `delete` on an allocated id removes exactly that table entry and
pushes one new free block with the same offset and length into the free
index, never merging with neighbours; in particular, after allocating two
adjacent size-4 blocks and releasing both, the free index holds two free
blocks of length 4 (and none of length 8). -/
theorem delete_no_coalesce (s : MemoryManager) (id : Nat) (b : MemoryBlock)
    (hget : allocGet id s.allocated_blocks = some b) :
    ((s.delete id).allocated_blocks = (allocRemove id s.allocated_blocks).2 ∧
     (s.delete id).free_blocks
       = freeInsert b.size ⟨b.start, b.size, false, none⟩ s.free_blocks) ∧
    (runIds c7ops MemoryManager.new = some (c7state, c7ids) ∧
     freeLookup 4 c7state.free_blocks
       = some [⟨0, 4, false, none⟩, ⟨4, 4, false, none⟩] ∧
     freeLookup 8 c7state.free_blocks = none) := by
  constructor
  · rcases delete_cases s id with ⟨hnone, _⟩ | ⟨b2, alloc1, hrm, hget2, heq⟩
    · rw [hget] at hnone
      simp at hnone
    · have hb : b2 = b := by
        rw [hget] at hget2
        exact (Option.some.inj hget2).symm
      subst hb
      rw [heq, hrm]
      exact ⟨rfl, rfl⟩
  · exact ⟨rfl, rfl, rfl⟩

/-- The state after the two C7 witness inserts of adjacent size-4 blocks. -/
def c7base : MemoryManager :=
  ((runIds [Op.insert 4 [1, 1, 1, 1], Op.insert 4 [2, 2, 2, 2]]
    MemoryManager.new).getD (MemoryManager.new, [])).1

theorem delete_no_coalesce_witness :
    ((c7base.delete 0).allocated_blocks = (allocRemove 0 c7base.allocated_blocks).2 ∧
     (c7base.delete 0).free_blocks
       = freeInsert 4 ⟨0, 4, false, none⟩ c7base.free_blocks) ∧
    (runIds c7ops MemoryManager.new = some (c7state, c7ids) ∧
     freeLookup 4 c7state.free_blocks
       = some [⟨0, 4, false, none⟩, ⟨4, 4, false, none⟩] ∧
     freeLookup 8 c7state.free_blocks = none) :=
  delete_no_coalesce c7base 0 ⟨0, 4, true, some 0⟩ rfl

/-- C9 counterexample: the line `DELETE x` is malformed (non-numeric id),
yet processing it prints only the unconditional echo — no diagnostic — and
leaves the engine untouched. -/
theorem dispatcher_silent_skip :
    processLine "DELETE x" MemoryManager.new
      = (["Processing line: DELETE x"], some MemoryManager.new) := rfl

/-- A line's token list is malformed in the sense of the specification: a
known verb with fewer arguments than it requires (for `READ`: not exactly
one argument) or whose id/size token is not numeric. -/
def Malformed (tokens : List String) : Prop :=
  match tokens with
  | [] => False
  | v :: _ =>
    (v = "INSERT" ∧ (tokens.length < 3 ∨ parseNat? (tokens.getD 1 "") = none)) ∨
    (v = "DELETE" ∧ (tokens.length < 2 ∨ parseNat? (tokens.getD 1 "") = none)) ∨
    (v = "FIND" ∧ (tokens.length < 2 ∨ parseNat? (tokens.getD 1 "") = none)) ∨
    (v = "READ" ∧ (tokens.length ≠ 2 ∨ parseNat? (tokens.getD 1 "") = none)) ∨
    (v = "UPDATE" ∧ (tokens.length < 3 ∨ parseNat? (tokens.getD 1 "") = none))

/-- The diagnostics the dispatcher emits on a malformed line: only the
wrong-argument-count cases, and a two-token `READ` whose id fails to parse,
produce a message; a failed numeric parse elsewhere is silent. -/
def diagMsgs (tokens : List String) : List String :=
  match tokens with
  | [] => []
  | verb :: _ =>
    match verb with
    | "INSERT" => if tokens.length < 3 then ["Error: Invalid INSERT command"] else []
    | "DELETE" => if tokens.length < 2 then ["Error: Invalid DELETE command"] else []
    | "FIND" => if tokens.length < 2 then ["Error: Invalid FIND command"] else []
    | "READ" => if tokens.length = 2 then ["Invalid READ command format"] else []
    | "UPDATE" => if tokens.length < 3 then ["Error: Invalid UPDATE command"] else []
    | _ => []

theorem dispatch_malformed_tokens (v : String) (args : List String)
    (s : MemoryManager) (hm : Malformed (v :: args)) :
    dispatch (v :: args) s = (diagMsgs (v :: args), some s) := by
  simp only [Malformed] at hm
  rcases hm with ⟨hv, hc⟩ | ⟨hv, hc⟩ | ⟨hv, hc⟩ | ⟨hv, hc⟩ | ⟨hv, hc⟩ <;> subst hv
  · simp only [dispatch, diagMsgs]
    by_cases hlen : ("INSERT" :: args).length < 3
    · rw [if_pos hlen, if_pos hlen]
    · rw [if_neg hlen, if_neg hlen]
      have hp : parseNat? (("INSERT" :: args).getD 1 "") = none := by
        rcases hc with hc | hc
        · exact absurd hc hlen
        · exact hc
      rw [hp]
  · simp only [dispatch, diagMsgs]
    by_cases hlen : ("DELETE" :: args).length < 2
    · rw [if_pos hlen, if_pos hlen]
    · rw [if_neg hlen, if_neg hlen]
      have hp : parseNat? (("DELETE" :: args).getD 1 "") = none := by
        rcases hc with hc | hc
        · exact absurd hc hlen
        · exact hc
      rw [hp]
  · simp only [dispatch, diagMsgs]
    by_cases hlen : ("FIND" :: args).length < 2
    · rw [if_pos hlen, if_pos hlen]
    · rw [if_neg hlen, if_neg hlen]
      have hp : parseNat? (("FIND" :: args).getD 1 "") = none := by
        rcases hc with hc | hc
        · exact absurd hc hlen
        · exact hc
      rw [hp]
  · simp only [dispatch, diagMsgs]
    by_cases hlen : ("READ" :: args).length = 2
    · rw [if_pos hlen, if_pos hlen]
      have hp : parseNat? (("READ" :: args).getD 1 "") = none := by
        rcases hc with hc | hc
        · exact absurd hlen hc
        · exact hc
      rw [hp]
    · rw [if_neg hlen, if_neg hlen]
  · simp only [dispatch, diagMsgs]
    by_cases hlen : ("UPDATE" :: args).length < 3
    · rw [if_pos hlen, if_pos hlen]
    · rw [if_neg hlen, if_neg hlen]
      have hp : parseNat? (("UPDATE" :: args).getD 1 "") = none := by
        rcases hc with hc | hc
        · exact absurd hc hlen
        · exact hc
      rw [hp]

/-- C9 amended: a malformed line (wrong argument count, or non-numeric
id/size token) never invokes an engine operation — the state comes back
unchanged and processing continues with all remaining lines — but a
diagnostic is emitted only for the wrong-argument-count cases and for a
two-token `READ` whose id is non-numeric; a line whose numeric token fails
to parse (and a `READ` with wrong argument count) is skipped silently. -/
theorem dispatcher_malformed (line : String) (s : MemoryManager)
    (rest : List String) (hm : Malformed (tokenizeLine line)) :
    dispatch (tokenizeLine line) s = (diagMsgs (tokenizeLine line), some s) ∧
    process_file (line :: rest) s
      = (("Processing line: " ++ line) :: (diagMsgs (tokenizeLine line)
          ++ (process_file rest s).1), (process_file rest s).2) := by
  have hd : dispatch (tokenizeLine line) s
      = (diagMsgs (tokenizeLine line), some s) := by
    rcases htok : tokenizeLine line with _ | ⟨v, args⟩
    · rw [htok] at hm
      simp [Malformed] at hm
    · rw [htok] at hm
      exact dispatch_malformed_tokens v args s hm
  refine ⟨hd, ?_⟩
  simp only [process_file, processLine, hd]
  simp [List.cons_append]

theorem dispatcher_malformed_witness :
    dispatch (tokenizeLine "UPDATE seven x") MemoryManager.new
      = (diagMsgs (tokenizeLine "UPDATE seven x"), some MemoryManager.new) ∧
    process_file ["UPDATE seven x"] MemoryManager.new
      = (("Processing line: " ++ "UPDATE seven x")
          :: (diagMsgs (tokenizeLine "UPDATE seven x")
            ++ (process_file [] MemoryManager.new).1),
        (process_file [] MemoryManager.new).2) :=
  dispatcher_malformed "UPDATE seven x" MemoryManager.new [] (by
    right
    right
    right
    right
    exact ⟨rfl, Or.inr rfl⟩)

end MemSim
